import Mathlib

/-!
Verification of the geospatial graph-construction engine of
`src/src/App.jsx`: the haversine distance metric (`haversineDistance`)
and Kruskal's minimum-spanning-tree builder (`buildMinimumSpanningTree`)
with its union-find cycle detection.

Numbers are modelled as real numbers (idealized arithmetic for the
JavaScript `number` operations); point ids are strings; the union-find
`parent` object is modelled as a total function from ids to ids that the
builder initializes to the identity on the ids of its input points.
-/

/-- A geographic point as parsed from the CSV by the upstream collaborator:
an id, opaque descriptive payload, and decimal-degree coordinates.
The core reads only `id`, `lat`, `lng`. -/
structure Point where
  id : String
  localidad : String := ""
  provincia : String := ""
  poblacion : String := ""
  estado : String := ""
  lat : ℝ
  lng : ℝ


/-- JavaScript `Math.atan2(y, x)`: the angle of the point (x, y),
in (-π, π], which is exactly the complex argument of x + y·i. -/
noncomputable def atan2 (y x : ℝ) : ℝ := Complex.arg ⟨x, y⟩

/-- `toRad` from the source: `(x * Math.PI) / 180`. -/
noncomputable def toRad (x : ℝ) : ℝ := x * Real.pi / 180

/-- `haversineDistance` from `src/src/App.jsx` lines 17-32. -/
noncomputable def haversineDistance (a b : Point) : ℝ :=
  let R : ℝ := 6371
  let dLat := toRad (b.lat - a.lat)
  let dLng := toRad (b.lng - a.lng)
  let lat1 := toRad a.lat
  let lat2 := toRad b.lat
  let aVal := Real.sin (dLat / 2) ^ 2 +
    Real.sin (dLng / 2) ^ 2 * Real.cos lat1 * Real.cos lat2
  let c := 2 * atan2 (Real.sqrt aVal) (Real.sqrt (1 - aVal))
  R * c

/-- Modelled from the spec (§4.1 Algorithm), for refinement comparison with
the source's `haversineDistance`:
`Δlat = radians(B.lat - A.lat)`, `Δlng = radians(B.lng - A.lng)`,
`a = sin²(Δlat/2) + cos(radians(A.lat)) · cos(radians(B.lat)) · sin²(Δlng/2)`,
`c = 2 · atan2(√a, √(1-a))`, `distance = 6371 · c`. -/
noncomputable def specHaversine (A B : Point) : ℝ :=
  let dLat := toRad (B.lat - A.lat)
  let dLng := toRad (B.lng - A.lng)
  let a := Real.sin (dLat / 2) ^ 2 +
    Real.cos (toRad A.lat) * Real.cos (toRad B.lat) * Real.sin (dLng / 2) ^ 2
  let c := 2 * atan2 (Real.sqrt a) (Real.sqrt (1 - a))
  6371 * c

/-- Valid decimal-degree coordinates: lat in [-90, 90], lng in [-180, 180]
(spec §3 Data Model). -/
def validCoord (p : Point) : Prop :=
  -90 ≤ p.lat ∧ p.lat ≤ 90 ∧ -180 ≤ p.lng ∧ p.lng ≤ 180

/-- An edge of the candidate/output list: two endpoint points and their
distance, as pushed in the enumeration loop. The source fields `from` and
`to` are reserved words in Lean and are rendered `efrom` / `eto`. -/
structure Edge where
  efrom : Point
  eto : Point
  distance : ℝ


/-- The nested loop of lines 39-47: all pairs `(nodes[i], nodes[j])` with
`i < j`, in enumeration order (i outer and increasing, j inner). -/
def pairs : List Point → List (Point × Point)
  | [] => []
  | p :: rest => (rest.map fun q => (p, q)) ++ pairs rest

/-- The candidate edge list built by lines 39-47. -/
noncomputable def enumEdges (nodes : List Point) : List Edge :=
  (pairs nodes).map fun pq => ⟨pq.1, pq.2, haversineDistance pq.1 pq.2⟩

/-- The comparator of line 49, `(a, b) => a.distance - b.distance`,
as the Boolean "a sorts no later than b" relation used by the stable sort. -/
noncomputable def edgeLE (a b : Edge) : Bool := decide (a.distance ≤ b.distance)

/-- Line 49: `edges.sort((a, b) => a.distance - b.distance)`.
JavaScript `Array.prototype.sort` is a stable sort; modelled by the stable
`List.mergeSort`. -/
noncomputable def sortEdges (edges : List Edge) : List Edge :=
  edges.mergeSort edgeLE

/-- The union-find `parent` object (line 52), modelled as a total map on id
strings; ids of the input points are initialized to themselves (line 58)
and only ids reachable from input points are ever consulted. -/
abbrev Parent : Type := String → String

/-- Line 53: `find = (id) => (parent[id] !== id ? (parent[id] = find(parent[id])) : id)`,
with path compression. The recursion is bounded by explicit fuel; under
the no-cycle invariant of the builder a fuel of `nodes.length` suffices
(proved below). Returns the root together with the updated map. -/
def find (fuel : Nat) (parent : Parent) (id : String) : String × Parent :=
  match fuel with
  | 0 => (id, parent)
  | fuel + 1 =>
    if parent id = id then (id, parent)
    else
      let r := find fuel parent (parent id)
      (r.1, Function.update r.2 id r.1)

/-- Lines 54-56: `union = (a, b) => { parent[find(a)] = find(b) }`. -/
def union (fuel : Nat) (parent : Parent) (a b : String) : Parent :=
  let ra := find fuel parent a
  let rb := find fuel ra.2 b
  Function.update rb.2 ra.1 rb.1

/-- The edge-selection loop of lines 62-69: process edges in order, accept
an edge when the roots of its endpoints differ, then union the roots. -/
def kruskalLoop (fuel : Nat) (parent : Parent) : List Edge → List Edge
  | [] => []
  | e :: rest =>
    let ra := find fuel parent e.efrom.id
    let rb := find fuel ra.2 e.eto.id
    if ra.1 ≠ rb.1 then
      e :: kruskalLoop fuel (union fuel rb.2 ra.1 rb.1) rest
    else
      kruskalLoop fuel rb.2 rest

/-- `buildMinimumSpanningTree` from `src/src/App.jsx` lines 35-72:
enumerate all pairs, sort by distance, select cycle-free edges via
union-find initialized to the identity on the input ids. -/
noncomputable def buildMinimumSpanningTree (nodes : List Point) : List Edge :=
  kruskalLoop nodes.length (fun id => id) (sortEdges (enumEdges nodes))

/-! ### Abstract graph notions used to specify the builder

Connectivity over an edge list is the equivalence closure of its adjacency
relation on id strings; components are counted as the cardinality of the
quotient of the vertex set by that relation. -/

/-- The vertex set of an input list: the ids of its points. -/
def idSet (nodes : List Point) : Finset String := (nodes.map Point.id).toFinset

/-- Adjacency: `x` and `y` are the two endpoint ids of some edge in `E`. -/
def adjE (E : List Edge) (x y : String) : Prop :=
  ∃ e ∈ E, (e.efrom.id = x ∧ e.eto.id = y) ∨ (e.efrom.id = y ∧ e.eto.id = x)

/-- Connectivity through the edges of `E`: the equivalence closure of
adjacency. -/
def conn (E : List Edge) : String → String → Prop := Relation.EqvGen (adjE E)

/-- `conn E` as a setoid on the vertices of `V`. -/
def connSetoid (V : Finset String) (E : List Edge) :
    Setoid {x : String // x ∈ V} :=
  ⟨fun a b => conn E a.1 b.1,
    ⟨fun _ => Relation.EqvGen.refl _,
     fun h => Relation.EqvGen.symm _ _ h,
     fun h h' => Relation.EqvGen.trans _ _ _ h h'⟩⟩

/-- The number of connected components of `(V, E)`. -/
noncomputable def ncomp (V : Finset String) (E : List Edge) : ℕ :=
  Nat.card (Quotient (connSetoid V E))

/-- Every edge of `E` has both endpoint ids in `V`. -/
def edgesValid (V : Finset String) (E : List Edge) : Prop :=
  ∀ e ∈ E, e.efrom.id ∈ V ∧ e.eto.id ∈ V

/-- The rank characterization of forests: an edge list is a forest on `V`
exactly when each edge reduces the component count by one, i.e. when
components plus edges equals vertices. -/
def IsForest (V : Finset String) (E : List Edge) : Prop :=
  ncomp V E + E.length = V.card

/-- `T` is a spanning tree of the implicit complete graph on `nodes`:
its edges are candidate edges, it connects every two vertex ids, and it
has exactly `|V| - 1` edges. -/
def SpanningTree (nodes : List Point) (T : List Edge) : Prop :=
  (∀ e ∈ T, e ∈ enumEdges nodes) ∧
  (∀ x ∈ idSet nodes, ∀ y ∈ idSet nodes, conn T x y) ∧
  T.length = (idSet nodes).card - 1

/-- Total distance of an edge list (sum of the `distance` fields). -/
noncomputable def sumDist (E : List Edge) : ℝ := (E.map Edge.distance).sum

open Classical in
/-- The abstract greedy selection the union-find loop implements: given the
list `A` of edges accepted so far, accept the next edge exactly when its
endpoints are not yet connected through `A`. -/
noncomputable def sel (A : List Edge) : List Edge → List Edge
  | [] => []
  | e :: es =>
    if conn A e.efrom.id e.eto.id then sel A es
    else e :: sel (A ++ [e]) es

/-- Prefix-acyclicity: starting from already-accepted edges `A`, every edge
of the list joins two points not yet connected through the edges before it. -/
def ForestFrom (A : List Edge) : List Edge → Prop
  | [] => True
  | e :: es => ¬ conn A e.efrom.id e.eto.id ∧ ForestFrom (A ++ [e]) es

/-! ### Abstractions of the union-find state -/

/-- `x` is a root of the parent map. -/
def isRoot (p : Parent) (x : String) : Prop := p x = x

/-- The parent chain from `x` reaches a root in at most `n` steps. -/
def RootedIn (p : Parent) (n : ℕ) (x : String) : Prop :=
  ∃ k ≤ n, isRoot p (p^[k] x)

open Classical in
/-- The root of `x`: the first fixpoint on the parent chain from `x`
(well-defined whenever the chain terminates). -/
noncomputable def rootOf (p : Parent) (x : String) : String :=
  if h : ∃ k, isRoot p (p^[k] x) then p^[Nat.find h] x else x

/-! ### Basic unfolding lemmas for the distance metric -/

theorem haversineDistance_eq (a b : Point) :
    haversineDistance a b =
      6371 * (2 * atan2
        (Real.sqrt (Real.sin (toRad (b.lat - a.lat) / 2) ^ 2 +
          Real.sin (toRad (b.lng - a.lng) / 2) ^ 2 *
            Real.cos (toRad a.lat) * Real.cos (toRad b.lat)))
        (Real.sqrt (1 - (Real.sin (toRad (b.lat - a.lat) / 2) ^ 2 +
          Real.sin (toRad (b.lng - a.lng) / 2) ^ 2 *
            Real.cos (toRad a.lat) * Real.cos (toRad b.lat))))) := rfl

theorem hav_aVal_symm (a b : Point) :
    Real.sin (toRad (b.lat - a.lat) / 2) ^ 2 +
        Real.sin (toRad (b.lng - a.lng) / 2) ^ 2 *
          Real.cos (toRad a.lat) * Real.cos (toRad b.lat) =
      Real.sin (toRad (a.lat - b.lat) / 2) ^ 2 +
        Real.sin (toRad (a.lng - b.lng) / 2) ^ 2 *
          Real.cos (toRad b.lat) * Real.cos (toRad a.lat) := by
  have h1 : toRad (a.lat - b.lat) / 2 = -(toRad (b.lat - a.lat) / 2) := by
    unfold toRad; ring
  have h2 : toRad (a.lng - b.lng) / 2 = -(toRad (b.lng - a.lng) / 2) := by
    unfold toRad; ring
  rw [h1, h2, Real.sin_neg, Real.sin_neg]; ring

/-- C4: for every two points A and B, `haversineDistance A B` equals the
spec's reference haversine computation (Δlat and Δlng in radians,
`a = sin²(Δlat/2) + cos(radians(A.lat))·cos(radians(B.lat))·sin²(Δlng/2)`,
`c = 2·atan2(√a, √(1-a))`, result `6371·c`). -/
theorem haversineDistance_eq_specHaversine (a b : Point) :
    haversineDistance a b = specHaversine a b := by
  rw [haversineDistance_eq]
  show _ = 6371 * (2 * atan2 (Real.sqrt _) (Real.sqrt (1 - _)))
  have h : Real.sin (toRad (b.lat - a.lat) / 2) ^ 2 +
      Real.sin (toRad (b.lng - a.lng) / 2) ^ 2 *
        Real.cos (toRad a.lat) * Real.cos (toRad b.lat) =
      Real.cos (toRad a.lat) * Real.cos (toRad b.lat) *
        Real.sin (toRad (b.lng - a.lng) / 2) ^ 2 +
      Real.sin (toRad (b.lat - a.lat) / 2) ^ 2 := by ring
  rw [h]; ring_nf

/-- C5: the distance metric is exactly symmetric:
`haversineDistance A B = haversineDistance B A`. -/
theorem haversineDistance_symm (a b : Point) :
    haversineDistance a b = haversineDistance b a := by
  rw [haversineDistance_eq, haversineDistance_eq, hav_aVal_symm]

/-- C6: two points sharing identical lat and lng coordinates (in particular
a point paired with itself) are at `haversineDistance` exactly 0. -/
theorem haversineDistance_eq_zero_of_eq_coords (a b : Point)
    (hlat : a.lat = b.lat) (hlng : a.lng = b.lng) :
    haversineDistance a b = 0 := by
  rw [haversineDistance_eq, hlat, hlng]
  have h10 : ((⟨1, 0⟩ : ℂ)) = (1 : ℂ) := by
    refine Complex.ext ?_ ?_ <;> simp
  simp [toRad, atan2, h10, Complex.arg_one]

/-- Witness for C6 at concrete points with equal coordinates and
distinct ids. -/
theorem haversineDistance_eq_zero_of_eq_coords_witness :
    haversineDistance ⟨"A", "", "", "", "", 1, 2⟩ ⟨"B", "", "", "", "", 1, 2⟩ = 0 :=
  haversineDistance_eq_zero_of_eq_coords _ _ rfl rfl

/-! ### Non-negativity of the metric (C8) -/

theorem cos_toRad_nonneg {x : ℝ} (h1 : -90 ≤ x) (h2 : x ≤ 90) :
    0 ≤ Real.cos (toRad x) := by
  have hπ := Real.pi_pos
  refine Real.cos_nonneg_of_mem_Icc ⟨?_, ?_⟩ <;> unfold toRad <;> nlinarith

theorem mem_of_mem_pairs {nodes : List Point} {pq : Point × Point}
    (h : pq ∈ pairs nodes) : pq.1 ∈ nodes ∧ pq.2 ∈ nodes := by
  induction nodes with
  | nil => simp [pairs] at h
  | cons p rest ih =>
    simp only [pairs, List.mem_append, List.mem_map] at h
    rcases h with ⟨q, hq, rfl⟩ | h
    · exact ⟨List.mem_cons_self _ _, List.mem_cons_of_mem _ hq⟩
    · exact ⟨List.mem_cons_of_mem _ (ih h).1, List.mem_cons_of_mem _ (ih h).2⟩

theorem hav_nonneg_of_valid {a b : Point} (ha : validCoord a)
    (hb : validCoord b) : 0 ≤ haversineDistance a b := by
  rw [haversineDistance_eq]
  have hca : 0 ≤ Real.cos (toRad a.lat) := cos_toRad_nonneg ha.1 ha.2.1
  have hcb : 0 ≤ Real.cos (toRad b.lat) := cos_toRad_nonneg hb.1 hb.2.1
  have harg : 0 ≤ atan2
      (Real.sqrt (Real.sin (toRad (b.lat - a.lat) / 2) ^ 2 +
        Real.sin (toRad (b.lng - a.lng) / 2) ^ 2 *
          Real.cos (toRad a.lat) * Real.cos (toRad b.lat)))
      (Real.sqrt (1 - (Real.sin (toRad (b.lat - a.lat) / 2) ^ 2 +
        Real.sin (toRad (b.lng - a.lng) / 2) ^ 2 *
          Real.cos (toRad a.lat) * Real.cos (toRad b.lat)))) := by
    unfold atan2
    exact Complex.arg_nonneg_iff.mpr (Real.sqrt_nonneg _)
  positivity

/-- C8: for every two points with valid coordinates the distance is
non-negative, and consequently every candidate edge enumerated from a list
of valid points carries a non-negative distance. -/
theorem haversineDistance_nonneg :
    (∀ a b : Point, validCoord a → validCoord b → 0 ≤ haversineDistance a b) ∧
    (∀ nodes : List Point, (∀ p ∈ nodes, validCoord p) →
      ∀ e ∈ enumEdges nodes, 0 ≤ e.distance) := by
  refine ⟨fun a b ha hb => hav_nonneg_of_valid ha hb, fun nodes hv e he => ?_⟩
  simp only [enumEdges, List.mem_map] at he
  obtain ⟨pq, hpq, rfl⟩ := he
  obtain ⟨h1, h2⟩ := mem_of_mem_pairs hpq
  exact hav_nonneg_of_valid (hv _ h1) (hv _ h2)

/-- Witness for C8: both parts applied at concrete valid points. -/
theorem haversineDistance_nonneg_witness :
    0 ≤ haversineDistance ⟨"A", "", "", "", "", 10, 20⟩
        ⟨"B", "", "", "", "", -45, 170⟩ ∧
    0 ≤ (Edge.mk ⟨"A", "", "", "", "", 10, 20⟩ ⟨"B", "", "", "", "", -45, 170⟩
        (haversineDistance ⟨"A", "", "", "", "", 10, 20⟩
          ⟨"B", "", "", "", "", -45, 170⟩)).distance := by
  constructor
  · exact haversineDistance_nonneg.1 _ _ (by norm_num [validCoord])
      (by norm_num [validCoord])
  · refine haversineDistance_nonneg.2
      [⟨"A", "", "", "", "", 10, 20⟩, ⟨"B", "", "", "", "", -45, 170⟩] ?_ _ ?_
    · intro p hp
      simp only [List.mem_cons, List.not_mem_nil, or_false] at hp
      rcases hp with rfl | rfl <;> norm_num [validCoord]
    · simp [enumEdges, pairs]

/-! ### Connectivity lemmas -/

theorem conn_refl (E : List Edge) (x : String) : conn E x x :=
  Relation.EqvGen.refl x

theorem conn_symm {E : List Edge} {x y : String} (h : conn E x y) :
    conn E y x :=
  Relation.EqvGen.symm _ _ h

theorem conn_trans {E : List Edge} {x y z : String} (h1 : conn E x y)
    (h2 : conn E y z) : conn E x z :=
  Relation.EqvGen.trans _ _ _ h1 h2

theorem conn_mono {E F : List Edge} (hEF : ∀ e ∈ E, e ∈ F) {x y : String}
    (h : conn E x y) : conn F x y := by
  refine Relation.EqvGen.mono ?_ h
  rintro a b ⟨e, he, hor⟩
  exact ⟨e, hEF e he, hor⟩

theorem adj_conn {E : List Edge} {e : Edge} (he : e ∈ E) :
    conn E e.efrom.id e.eto.id :=
  Relation.EqvGen.rel _ _ ⟨e, he, Or.inl ⟨rfl, rfl⟩⟩

theorem conn_congr {E F : List Edge} (h : ∀ e, e ∈ E ↔ e ∈ F) {x y : String} :
    conn E x y ↔ conn F x y :=
  ⟨conn_mono fun e he => (h e).mp he, conn_mono fun e he => (h e).mpr he⟩

theorem conn_nil {x y : String} : conn [] x y ↔ x = y := by
  constructor
  · intro h
    induction h with
    | rel a b hr => obtain ⟨e, he, _⟩ := hr; exact absurd he (List.not_mem_nil e)
    | refl a => rfl
    | symm a b _ ih => exact ih.symm
    | trans a b c _ _ ih1 ih2 => exact ih1.trans ih2
  · rintro rfl; exact conn_refl _ _

theorem conn_collapse {F G : List Edge}
    (h : ∀ e ∈ F, conn G e.efrom.id e.eto.id) {x y : String}
    (hxy : conn F x y) : conn G x y := by
  induction hxy with
  | rel a b hr =>
    obtain ⟨e, he, hor⟩ := hr
    rcases hor with ⟨h1, h2⟩ | ⟨h1, h2⟩
    · exact h1 ▸ h2 ▸ h e he
    · exact h1 ▸ h2 ▸ conn_symm (h e he)
  | refl a => exact conn_refl _ _
  | symm a b _ ih => exact conn_symm ih
  | trans a b c _ _ ih1 ih2 => exact conn_trans ih1 ih2

theorem conn_cons_iff {e : Edge} {E : List Edge} {x y : String} :
    conn (e :: E) x y ↔ conn E x y ∨
      (conn E x e.efrom.id ∧ conn E e.eto.id y) ∨
      (conn E x e.eto.id ∧ conn E e.efrom.id y) := by
  constructor
  · intro h
    induction h with
    | rel a b hr =>
      obtain ⟨e', he', hor⟩ := hr
      rcases List.mem_cons.mp he' with rfl | he'
      · rcases hor with ⟨h1, h2⟩ | ⟨h1, h2⟩
        · exact Or.inr (Or.inl ⟨h1 ▸ conn_refl E a, h2 ▸ conn_refl E b⟩)
        · exact Or.inr (Or.inr ⟨h2 ▸ conn_refl E a, h1 ▸ conn_refl E b⟩)
      · exact Or.inl (Relation.EqvGen.rel _ _ ⟨e', he', hor⟩)
    | refl a => exact Or.inl (conn_refl _ _)
    | symm a b _ ih =>
      rcases ih with h | ⟨h1, h2⟩ | ⟨h1, h2⟩
      · exact Or.inl (conn_symm h)
      · exact Or.inr (Or.inr ⟨conn_symm h2, conn_symm h1⟩)
      · exact Or.inr (Or.inl ⟨conn_symm h2, conn_symm h1⟩)
    | trans a b c _ _ ih1 ih2 =>
      rcases ih1 with h | ⟨h1, h2⟩ | ⟨h1, h2⟩ <;>
        rcases ih2 with h' | ⟨h1', h2'⟩ | ⟨h1', h2'⟩
      · exact Or.inl (conn_trans h h')
      · exact Or.inr (Or.inl ⟨conn_trans h h1', h2'⟩)
      · exact Or.inr (Or.inr ⟨conn_trans h h1', h2'⟩)
      · exact Or.inr (Or.inl ⟨h1, conn_trans h2 h'⟩)
      · exact Or.inl (conn_trans h1
          (conn_trans (conn_symm (conn_trans h2 h1')) h2'))
      · exact Or.inl (conn_trans h1 h2')
      · exact Or.inr (Or.inr ⟨h1, conn_trans h2 h'⟩)
      · exact Or.inl (conn_trans h1 h2')
      · exact Or.inl (conn_trans h1
          (conn_trans (conn_symm (conn_trans h2 h1')) h2'))
  · rintro (h | ⟨h1, h2⟩ | ⟨h1, h2⟩)
    · exact conn_mono (fun e' he' => List.mem_cons_of_mem e he') h
    · refine conn_trans (conn_mono (fun e' he' => List.mem_cons_of_mem e he') h1)
        (conn_trans (adj_conn (List.mem_cons_self e E))
          (conn_mono (fun e' he' => List.mem_cons_of_mem e he') h2))
    · refine conn_trans (conn_mono (fun e' he' => List.mem_cons_of_mem e he') h1)
        (conn_trans (conn_symm (adj_conn (List.mem_cons_self e E)))
          (conn_mono (fun e' he' => List.mem_cons_of_mem e he') h2))

/-! ### Component counting -/

theorem ncomp_le_of_conn_imp {V : Finset String} {E F : List Edge}
    (h : ∀ x y, conn E x y → conn F x y) : ncomp V F ≤ ncomp V E := by
  have hsurj : Function.Surjective
      (Quotient.lift (fun x => Quotient.mk (connSetoid V F) x)
        (fun a b hab => Quotient.sound (h _ _ hab)) :
        Quotient (connSetoid V E) → Quotient (connSetoid V F)) := by
    intro u
    obtain ⟨x, rfl⟩ := Quotient.exists_rep u
    exact ⟨Quotient.mk _ x, rfl⟩
  exact Nat.card_le_card_of_surjective _ hsurj

theorem ncomp_congr {V : Finset String} {E F : List Edge}
    (h : ∀ x y, conn E x y ↔ conn F x y) : ncomp V E = ncomp V F :=
  le_antisymm (ncomp_le_of_conn_imp fun x y hxy => (h x y).mpr hxy)
    (ncomp_le_of_conn_imp fun x y hxy => (h x y).mp hxy)

theorem ncomp_nil {V : Finset String} : ncomp V [] = V.card := by
  have hbij : Function.Bijective
      (Quotient.lift (fun x => x)
        (fun a b hab => Subtype.ext (conn_nil.mp hab)) :
        Quotient (connSetoid V []) → {x : String // x ∈ V}) := by
    constructor
    · intro u v huv
      obtain ⟨x, rfl⟩ := Quotient.exists_rep u
      obtain ⟨y, rfl⟩ := Quotient.exists_rep v
      simp only [Quotient.lift_mk] at huv
      exact Quotient.sound (show conn [] x.1 y.1 from conn_nil.mpr (by rw [huv]))
    · intro x
      exact ⟨Quotient.mk _ x, rfl⟩
  rw [ncomp, Nat.card_eq_of_bijective _ hbij, Nat.card_eq_fintype_card,
    Fintype.card_coe]

theorem ncomp_cons_of_conn {V : Finset String} {E : List Edge} {e : Edge}
    (h : conn E e.efrom.id e.eto.id) : ncomp V (e :: E) = ncomp V E := by
  refine ncomp_congr fun x y => ?_
  rw [conn_cons_iff]
  constructor
  · rintro (hc | ⟨h1, h2⟩ | ⟨h1, h2⟩)
    · exact hc
    · exact conn_trans h1 (conn_trans h h2)
    · exact conn_trans h1 (conn_trans (conn_symm h) h2)
  · exact fun hc => Or.inl hc

theorem ncomp_cons_le {V : Finset String} {E : List Edge} {e : Edge} :
    ncomp V (e :: E) ≤ ncomp V E :=
  ncomp_le_of_conn_imp fun _ _ h =>
    conn_mono (fun _ he' => List.mem_cons_of_mem e he') h

theorem ncomp_cons_of_not_conn {V : Finset String} {E : List Edge} {e : Edge}
    (ha : e.efrom.id ∈ V) (hb : e.eto.id ∈ V)
    (h : ¬ conn E e.efrom.id e.eto.id) :
    ncomp V E = ncomp V (e :: E) + 1 := by
  classical
  set α := Quotient.mk (connSetoid V E) ⟨e.efrom.id, ha⟩ with hα
  set β := Quotient.mk (connSetoid V E) ⟨e.eto.id, hb⟩ with hβ
  have hq : ∀ x y : {x : String // x ∈ V},
      Quotient.mk (connSetoid V E) x = Quotient.mk (connSetoid V E) y ↔
        conn E x.1 y.1 :=
    fun x y => ⟨fun hxy => Quotient.exact hxy, fun hxy => Quotient.sound hxy⟩
  have hαβ : α ≠ β := fun hne => h ((hq _ _).mp hne)
  -- the map that forgets the new edge
  set q : Quotient (connSetoid V E) → Quotient (connSetoid V (e :: E)) :=
    Quotient.lift (fun x => Quotient.mk (connSetoid V (e :: E)) x)
      (fun a b hab => Quotient.sound
        (conn_mono (fun e' he' => List.mem_cons_of_mem e he') hab)) with hqdef
  have hq' : ∀ x y : {x : String // x ∈ V},
      Quotient.mk (connSetoid V (e :: E)) x =
        Quotient.mk (connSetoid V (e :: E)) y ↔ conn (e :: E) x.1 y.1 :=
    fun x y => ⟨fun hxy => Quotient.exact hxy, fun hxy => Quotient.sound hxy⟩
  have hchar : ∀ u v : Quotient (connSetoid V E), q u = q v ↔
      u = v ∨ (u = α ∧ v = β) ∨ (u = β ∧ v = α) := by
    intro u v
    obtain ⟨x, rfl⟩ := Quotient.exists_rep u
    obtain ⟨y, rfl⟩ := Quotient.exists_rep v
    show Quotient.mk _ x = Quotient.mk _ y ↔ _
    rw [hq' x y, conn_cons_iff, hα, hβ, hq, hq, hq, hq, hq]
    constructor
    · rintro (hc | ⟨h1, h2⟩ | ⟨h1, h2⟩)
      · exact Or.inl hc
      · exact Or.inr (Or.inl ⟨h1, conn_symm h2⟩)
      · exact Or.inr (Or.inr ⟨h1, conn_symm h2⟩)
    · rintro (hc | ⟨h1, h2⟩ | ⟨h1, h2⟩)
      · exact Or.inl hc
      · exact Or.inr (Or.inl ⟨h1, conn_symm h2⟩)
      · exact Or.inr (Or.inr ⟨h1, conn_symm h2⟩)
  have hqαβ : q α = q β := by
    rw [hchar]; exact Or.inr (Or.inl ⟨rfl, rfl⟩)
  -- the big quotient is the small one plus the collapsed class
  have hsplit : Function.Bijective
      (fun u : Quotient (connSetoid V E) =>
        if hu : u = α then (none : Option {u : Quotient (connSetoid V E) // u ≠ α})
        else some ⟨u, hu⟩) := by
    constructor
    · intro u v huv
      dsimp only at huv
      by_cases hu : u = α <;> by_cases hv : v = α
      · rw [hu, hv]
      · rw [dif_pos hu, dif_neg hv] at huv
        exact absurd huv.symm (Option.some_ne_none _)
      · rw [dif_neg hu, dif_pos hv] at huv
        exact absurd huv (Option.some_ne_none _)
      · rw [dif_neg hu, dif_neg hv] at huv
        exact congrArg Subtype.val (Option.some_injective _ huv)
    · rintro (_ | ⟨u, hu⟩)
      · exact ⟨α, by simp⟩
      · exact ⟨u, by simp [hu]⟩
  have hrestr : Function.Bijective
      (fun u : {u : Quotient (connSetoid V E) // u ≠ α} => q u.1) := by
    constructor
    · rintro ⟨u, hu⟩ ⟨v, hv⟩ huv
      rcases (hchar u v).mp huv with hc | ⟨h1, _⟩ | ⟨_, h2⟩
      · exact Subtype.ext hc
      · exact absurd h1 hu
      · exact absurd h2 hv
    · intro w
      obtain ⟨y, rfl⟩ := Quotient.exists_rep w
      by_cases hy : Quotient.mk (connSetoid V E) y = α
      · exact ⟨⟨β, fun hc => hαβ hc.symm⟩, by rw [show Quotient.mk (connSetoid V (e :: E)) y = q (Quotient.mk (connSetoid V E) y) from rfl, hy, hqαβ]⟩
      · exact ⟨⟨Quotient.mk (connSetoid V E) y, hy⟩, rfl⟩
  have h1 : ncomp V E =
      Nat.card (Option {u : Quotient (connSetoid V E) // u ≠ α}) :=
    Nat.card_eq_of_bijective _ hsplit
  have h2 : Nat.card {u : Quotient (connSetoid V E) // u ≠ α} =
      ncomp V (e :: E) :=
    Nat.card_eq_of_bijective _ hrestr
  rw [h1, Finite.card_option, h2]

theorem ncomp_le_cons_add_one {V : Finset String} {E : List Edge} {e : Edge}
    (ha : e.efrom.id ∈ V) (hb : e.eto.id ∈ V) :
    ncomp V E ≤ ncomp V (e :: E) + 1 := by
  classical
  by_cases h : conn E e.efrom.id e.eto.id
  · rw [ncomp_cons_of_conn h]; omega
  · rw [ncomp_cons_of_not_conn ha hb h]

theorem card_le_ncomp_add_length {V : Finset String} :
    ∀ {E : List Edge}, edgesValid V E → V.card ≤ ncomp V E + E.length := by
  intro E
  induction E with
  | nil => intro _; rw [ncomp_nil]; omega
  | cons e E ih =>
    intro hv
    have hih := ih fun e' he' => hv e' (List.mem_cons_of_mem e he')
    have hee := hv e (List.mem_cons_self e E)
    have := ncomp_le_cons_add_one (V := V) (E := E) hee.1 hee.2
    simp only [List.length_cons]
    omega

theorem ncomp_measure_sublist {V : Finset String} :
    ∀ {T' T : List Edge}, List.Sublist T' T → edgesValid V T →
      ncomp V T' + T'.length ≤ ncomp V T + T.length := by
  intro T' T h
  induction h with
  | slnil => intro _; exact le_refl _
  | @cons l₁ l₂ a h ih =>
    intro hv
    have hih := ih fun e' he' => hv e' (List.mem_cons_of_mem a he')
    have hee := hv a (List.mem_cons_self a l₂)
    have := ncomp_le_cons_add_one (V := V) (E := l₂) hee.1 hee.2
    simp only [List.length_cons]
    omega
  | @cons₂ l₁ l₂ a h ih =>
    intro hv
    classical
    have hsub : ∀ x ∈ l₁, x ∈ l₂ := h.subset
    have hih := ih fun e' he' => hv e' (List.mem_cons_of_mem a he')
    have hee := hv a (List.mem_cons_self a l₂)
    simp only [List.length_cons]
    by_cases hc : conn l₁ a.efrom.id a.eto.id
    · rw [ncomp_cons_of_conn hc, ncomp_cons_of_conn (conn_mono hsub hc)]
      omega
    · have e1 := ncomp_cons_of_not_conn (V := V) hee.1 hee.2 hc
      by_cases hc2 : conn l₂ a.efrom.id a.eto.id
      · rw [ncomp_cons_of_conn hc2]
        omega
      · have e2 := ncomp_cons_of_not_conn (V := V) hee.1 hee.2 hc2
        omega

theorem IsForest_sublist {V : Finset String} {T' T : List Edge}
    (h : List.Sublist T' T) (hv : edgesValid V T) (hf : IsForest V T) :
    IsForest V T' := by
  have h1 := ncomp_measure_sublist h hv
  have h2 := card_le_ncomp_add_length (V := V)
    (fun e he => hv e (h.subset he))
  rw [IsForest] at hf ⊢
  omega

theorem forest_exchange {V : Finset String} {F1 F2 : List Edge}
    (h1 : IsForest V F1) (h2 : IsForest V F2)
    (hlen : F1.length < F2.length) :
    ∃ e ∈ F2, ¬ conn F1 e.efrom.id e.eto.id := by
  by_contra hcon
  push_neg at hcon
  have hmono : ncomp V F1 ≤ ncomp V F2 :=
    ncomp_le_of_conn_imp fun x y hxy => conn_collapse hcon hxy
  rw [IsForest] at h1 h2
  omega

theorem ncomp_eq_one_of_spanning {V : Finset String} {E : List Edge}
    (hne : V.Nonempty) (hsp : ∀ x ∈ V, ∀ y ∈ V, conn E x y) :
    ncomp V E = 1 := by
  rw [ncomp, Nat.card_eq_one_iff_unique]
  constructor
  · constructor
    intro u v
    obtain ⟨x, rfl⟩ := Quotient.exists_rep u
    obtain ⟨y, rfl⟩ := Quotient.exists_rep v
    exact Quotient.sound (hsp x.1 x.2 y.1 y.2)
  · obtain ⟨x, hx⟩ := hne
    exact ⟨Quotient.mk _ ⟨x, hx⟩⟩

/-! ### Properties of the abstract greedy selection -/

theorem sel_sublist : ∀ (es A : List Edge), List.Sublist (sel A es) es := by
  intro es
  induction es with
  | nil => intro A; simp [sel]
  | cons e es ih =>
    intro A
    rw [sel]
    split
    · exact List.Sublist.cons e (ih A)
    · exact List.Sublist.cons₂ e (ih (A ++ [e]))

theorem sel_append : ∀ (l₁ : List Edge) (A l₂ : List Edge),
    sel A (l₁ ++ l₂) = sel A l₁ ++ sel (A ++ sel A l₁) l₂ := by
  intro l₁
  induction l₁ with
  | nil => intro A l₂; simp [sel]
  | cons e l₁ ih =>
    intro A l₂
    classical
    by_cases hc : conn A e.efrom.id e.eto.id
    · rw [List.cons_append, sel, if_pos hc, sel, if_pos hc, ih]
    · rw [List.cons_append, sel, if_neg hc, sel, if_neg hc, List.cons_append,
        ih]
      simp only [← List.append_cons]

theorem sel_forestFrom : ∀ (es A : List Edge), ForestFrom A (sel A es) := by
  intro es
  induction es with
  | nil => intro A; rw [sel]; trivial
  | cons e es ih =>
    intro A
    classical
    by_cases hc : conn A e.efrom.id e.eto.id
    · rw [sel, if_pos hc]; exact ih A
    · rw [sel, if_neg hc]; exact ⟨hc, ih (A ++ [e])⟩

theorem ncomp_append_singleton {V : Finset String} {A : List Edge} {e : Edge} :
    ncomp V (A ++ [e]) = ncomp V (e :: A) :=
  ncomp_congr fun x y => conn_congr (by intro e'; simp [or_comm])

theorem IsForest_append_of_forestFrom {V : Finset String} :
    ∀ {out A : List Edge}, ForestFrom A out → edgesValid V (A ++ out) →
      IsForest V A → IsForest V (A ++ out) := by
  intro out
  induction out with
  | nil => intro A _ _ hf; simpa using hf
  | cons e out ih =>
    rintro A ⟨hnc, hff⟩ hv hf
    have hee : e.efrom.id ∈ V ∧ e.eto.id ∈ V :=
      hv e (by simp)
    have h1 : ncomp V A = ncomp V (A ++ [e]) + 1 := by
      rw [ncomp_append_singleton]
      exact ncomp_cons_of_not_conn hee.1 hee.2 hnc
    have hf' : IsForest V (A ++ [e]) := by
      rw [IsForest] at hf ⊢
      rw [List.length_append, List.length_singleton]
      omega
    have hv' : edgesValid V ((A ++ [e]) ++ out) := by
      intro e' he'
      refine hv e' ?_
      simp only [List.append_assoc, List.singleton_append] at he' ⊢
      exact he'
    have := ih hff hv' hf'
    rw [List.append_cons]
    exact this

theorem conn_append_sel : ∀ (es A : List Edge), ∀ e ∈ es,
    conn (A ++ sel A es) e.efrom.id e.eto.id := by
  intro es
  induction es with
  | nil => intro A e he; exact absurd he (List.not_mem_nil e)
  | cons e' es ih =>
    intro A e he
    classical
    rcases List.mem_cons.mp he with rfl | he
    · by_cases hc : conn A e.efrom.id e.eto.id
      · exact conn_mono (fun x hx => List.mem_append_left _ hx) hc
      · rw [sel, if_neg hc]
        exact adj_conn (by simp)
    · by_cases hc : conn A e'.efrom.id e'.eto.id
      · rw [sel, if_pos hc]; exact ih A e he
      · rw [sel, if_neg hc, List.append_cons]
        exact ih (A ++ [e']) e he

theorem conn_sel_filter {es : List Edge}
    (hsort : List.Pairwise (fun a b => a.distance ≤ b.distance) es)
    {e : Edge} (he : e ∈ es) :
    conn ((sel [] es).filter (fun e' => edgeLE e' e))
      e.efrom.id e.eto.id := by
  classical
  obtain ⟨l₁, l₂, rfl⟩ := List.append_of_mem he
  have hsplit : sel [] (l₁ ++ e :: l₂) =
      sel [] l₁ ++ sel (sel [] l₁) (e :: l₂) := by
    have := sel_append l₁ [] (e :: l₂)
    simpa using this
  have hle : ∀ a ∈ sel [] l₁, a.distance ≤ e.distance := by
    intro a ha
    have hmem : a ∈ l₁ := (sel_sublist l₁ []).subset ha
    have := (List.pairwise_append.mp hsort).2.2
    exact this a hmem e (by simp)
  have hsubK : ∀ a ∈ sel [] l₁,
      a ∈ (sel [] (l₁ ++ e :: l₂)).filter (fun e' => edgeLE e' e) := by
    intro a ha
    rw [List.mem_filter]
    refine ⟨by rw [hsplit]; exact List.mem_append_left _ ha, ?_⟩
    rw [edgeLE]
    exact decide_eq_true (hle a ha)
  by_cases hc : conn (sel [] l₁) e.efrom.id e.eto.id
  · exact conn_mono hsubK hc
  · have hmemK : e ∈ (sel [] (l₁ ++ e :: l₂)).filter (fun e' => edgeLE e' e) := by
      rw [List.mem_filter]
      constructor
      · rw [hsplit, sel, if_neg hc]
        exact List.mem_append_right _ (by simp)
      · rw [edgeLE]
        exact decide_eq_true (le_refl e.distance)
    exact adj_conn hmemK

/-! ### The sorted candidate list -/

theorem edgeLE_trans : ∀ a b c : Edge, edgeLE a b = true → edgeLE b c = true →
    edgeLE a c = true := by
  intro a b c hab hbc
  rw [edgeLE, decide_eq_true_eq] at hab hbc ⊢
  exact le_trans hab hbc

theorem edgeLE_total : ∀ a b : Edge, (edgeLE a b || edgeLE b a) = true := by
  intro a b
  rw [edgeLE, edgeLE, Bool.or_eq_true, decide_eq_true_eq, decide_eq_true_eq]
  exact le_total a.distance b.distance

theorem sortEdges_perm (l : List Edge) : List.Perm (sortEdges l) l :=
  List.mergeSort_perm l edgeLE

theorem sortEdges_sorted (l : List Edge) :
    List.Pairwise (fun a b : Edge => a.distance ≤ b.distance) (sortEdges l) := by
  have h := List.sorted_mergeSort edgeLE_trans edgeLE_total l
  exact h.imp fun hab => by rwa [edgeLE, decide_eq_true_eq] at hab

theorem enumEdges_valid (nodes : List Point) :
    edgesValid (idSet nodes) (enumEdges nodes) := by
  intro e he
  rw [enumEdges, List.mem_map] at he
  obtain ⟨pq, hpq, rfl⟩ := he
  obtain ⟨h1, h2⟩ := mem_of_mem_pairs hpq
  constructor
  · exact List.mem_toFinset.mpr (List.mem_map.mpr ⟨pq.1, h1, rfl⟩)
  · exact List.mem_toFinset.mpr (List.mem_map.mpr ⟨pq.2, h2, rfl⟩)

theorem pairs_complete : ∀ {nodes : List Point} {x y : Point}, x ∈ nodes →
    y ∈ nodes → x ≠ y → (x, y) ∈ pairs nodes ∨ (y, x) ∈ pairs nodes := by
  intro nodes
  induction nodes with
  | nil => intro x y hx _ _; exact absurd hx (List.not_mem_nil x)
  | cons n rest ih =>
    intro x y hx hy hne
    rcases List.mem_cons.mp hx with rfl | hx2
    · rcases List.mem_cons.mp hy with rfl | hy2
      · exact absurd rfl hne
      · refine Or.inl ?_
        rw [pairs]
        exact List.mem_append_left _ (List.mem_map.mpr ⟨y, hy2, rfl⟩)
    · rcases List.mem_cons.mp hy with rfl | hy2
      · refine Or.inr ?_
        rw [pairs]
        exact List.mem_append_left _ (List.mem_map.mpr ⟨x, hx2, rfl⟩)
      · rcases ih hx2 hy2 hne with h | h
        · refine Or.inl ?_
          rw [pairs]
          exact List.mem_append_right _ h
        · refine Or.inr ?_
          rw [pairs]
          exact List.mem_append_right _ h

theorem mem_idSet {nodes : List Point} {x : String} :
    x ∈ idSet nodes ↔ ∃ p ∈ nodes, p.id = x := by
  rw [idSet, List.mem_toFinset, List.mem_map]

theorem sel_spanning {nodes : List Point} {es : List Edge}
    (hes : ∀ e, e ∈ es ↔ e ∈ enumEdges nodes) :
    ∀ x ∈ idSet nodes, ∀ y ∈ idSet nodes, conn (sel [] es) x y := by
  intro x hx y hy
  by_cases hxy : x = y
  · rw [hxy]; exact conn_refl _ _
  · obtain ⟨p, hp, hpx⟩ := mem_idSet.mp hx
    obtain ⟨q, hq, hqy⟩ := mem_idSet.mp hy
    have hpq : p ≠ q := fun hc => hxy (by rw [← hpx, ← hqy, hc])
    have key : ∀ u v : Point, (u, v) ∈ pairs nodes →
        conn (sel [] es) u.id v.id := by
      intro u v huv
      have he : Edge.mk u v (haversineDistance u v) ∈ enumEdges nodes :=
        List.mem_map.mpr ⟨(u, v), huv, rfl⟩
      have := conn_append_sel es [] _ ((hes _).mpr he)
      simpa using this
    rcases pairs_complete hp hq hpq with h | h
    · exact hpx ▸ hqy ▸ key p q h
    · exact hpx ▸ hqy ▸ conn_symm (key q p h)

/-! ### The greedy result is a minimum spanning tree -/

theorem IsForest_of_perm {V : Finset String} {E F : List Edge}
    (hp : List.Perm E F) (hf : IsForest V E) : IsForest V F := by
  rw [IsForest] at hf ⊢
  rw [← hp.length_eq,
    ← ncomp_congr fun x y => conn_congr fun e => hp.mem_iff]
  exact hf

theorem forall₂_sum_le : ∀ {l₁ l₂ : List ℝ}, List.Forall₂ (· ≤ ·) l₁ l₂ →
    l₁.sum ≤ l₂.sum := by
  intro l₁ l₂ h
  induction h with
  | nil => exact le_refl 0
  | cons hab _ ih => simpa using add_le_add hab ih

theorem sel_isForest {nodes : List Point} {es : List Edge}
    (hes : ∀ e, e ∈ es ↔ e ∈ enumEdges nodes) :
    IsForest (idSet nodes) (sel [] es) := by
  have hvalid : edgesValid (idSet nodes) ([] ++ sel [] es) := by
    intro e he
    simp only [List.nil_append] at he
    exact enumEdges_valid nodes e
      ((hes e).mp ((sel_sublist es []).subset he))
  have := IsForest_append_of_forestFrom (sel_forestFrom es [])
    hvalid (by rw [IsForest, ncomp_nil]; simp)
  simpa using this

theorem sel_length {nodes : List Point} {es : List Edge}
    (hes : ∀ e, e ∈ es ↔ e ∈ enumEdges nodes)
    (hne : (idSet nodes).Nonempty) :
    (sel [] es).length = (idSet nodes).card - 1 := by
  have hf := sel_isForest hes
  have h1 : ncomp (idSet nodes) (sel [] es) = 1 :=
    ncomp_eq_one_of_spanning hne (sel_spanning hes)
  rw [IsForest, h1] at hf
  omega

theorem spanningTree_isForest {nodes : List Point} {T : List Edge}
    (hT : SpanningTree nodes T) (hne : (idSet nodes).Nonempty) :
    IsForest (idSet nodes) T := by
  obtain ⟨hmem, hsp, hlen⟩ := hT
  have hvalid : edgesValid (idSet nodes) T :=
    fun e he => enumEdges_valid nodes e (hmem e he)
  have hge := card_le_ncomp_add_length hvalid
  have h1 : ncomp (idSet nodes) T = 1 := ncomp_eq_one_of_spanning hne hsp
  have hcard : 1 ≤ (idSet nodes).card := Finset.card_pos.mpr hne
  rw [IsForest, h1]
  omega

theorem sel_sumDist_le {nodes : List Point} {es T : List Edge}
    (hsort : List.Pairwise (fun a b : Edge => a.distance ≤ b.distance) es)
    (hes : ∀ e, e ∈ es ↔ e ∈ enumEdges nodes)
    (hne : (idSet nodes).Nonempty)
    (hT : SpanningTree nodes T) :
    sumDist (sel [] es) ≤ sumDist T := by
  classical
  have hKforest : IsForest (idSet nodes) (sel [] es) := sel_isForest hes
  have hKlen : (sel [] es).length = (idSet nodes).card - 1 := sel_length hes hne
  have hKvalid : edgesValid (idSet nodes) (sel [] es) := fun e he =>
    enumEdges_valid nodes e ((hes e).mp ((sel_sublist es []).subset he))
  have hKsorted : List.Pairwise (fun a b : Edge => a.distance ≤ b.distance)
      (sel [] es) := hsort.sublist (sel_sublist es [])
  have hTforest : IsForest (idSet nodes) T := spanningTree_isForest hT hne
  have hTvalid : edgesValid (idSet nodes) T := fun e he =>
    enumEdges_valid nodes e (hT.1 e he)
  have hSperm : List.Perm T (T.mergeSort edgeLE) :=
    (List.mergeSort_perm T edgeLE).symm
  have hSsorted : List.Pairwise (fun a b : Edge => a.distance ≤ b.distance)
      (T.mergeSort edgeLE) := by
    have h := List.sorted_mergeSort edgeLE_trans edgeLE_total T
    exact h.imp fun hab => by rwa [edgeLE, decide_eq_true_eq] at hab
  have hSforest : IsForest (idSet nodes) (T.mergeSort edgeLE) :=
    IsForest_of_perm hSperm hTforest
  have hSvalid : edgesValid (idSet nodes) (T.mergeSort edgeLE) := fun e he =>
    hTvalid e (hSperm.mem_iff.mpr he)
  have hSlen : (T.mergeSort edgeLE).length = (idSet nodes).card - 1 := by
    rw [← hSperm.length_eq, hT.2.2]
  have hlen : (sel [] es).length = (T.mergeSort edgeLE).length := by
    rw [hKlen, hSlen]
  have hdom : ∀ (i : ℕ) (h1 : i < (sel [] es).length)
      (h2 : i < (T.mergeSort edgeLE).length),
      ((sel [] es).get ⟨i, h1⟩).distance ≤
        ((T.mergeSort edgeLE).get ⟨i, h2⟩).distance := by
    by_contra hcon
    push_neg at hcon
    obtain ⟨i, h1, h2, hlt⟩ := hcon
    have hF1 : IsForest (idSet nodes) ((sel [] es).take i) :=
      IsForest_sublist (List.take_sublist i _) hKvalid hKforest
    have hF2 : IsForest (idSet nodes) ((T.mergeSort edgeLE).take (i + 1)) :=
      IsForest_sublist (List.take_sublist (i + 1) _) hSvalid hSforest
    have hlen1 : ((sel [] es).take i).length = i := by
      rw [List.length_take]; omega
    have hlen2 : ((T.mergeSort edgeLE).take (i + 1)).length = i + 1 := by
      rw [List.length_take]; omega
    obtain ⟨e, heF2, hnc⟩ := forest_exchange hF1 hF2 (by omega)
    have hed : e.distance ≤ ((T.mergeSort edgeLE).get ⟨i, h2⟩).distance := by
      obtain ⟨⟨j, hj⟩, hje⟩ := List.mem_iff_get.mp heF2
      have hji : j < i + 1 := by
        have := hj; rw [hlen2] at this; exact this
      have hjS : j < (T.mergeSort edgeLE).length := by omega
      have hgt : ((T.mergeSort edgeLE).take (i + 1)).get ⟨j, hj⟩ =
          (T.mergeSort edgeLE).get ⟨j, hjS⟩ :=
        (List.get_take _ hjS hji).symm
      rcases Nat.lt_or_ge j i with hlt' | hge
      · have := List.pairwise_iff_get.mp hSsorted ⟨j, hjS⟩ ⟨i, h2⟩ hlt'
        rw [← hje, hgt]
        exact this
      · have hji2 : j = i := by omega
        rw [← hje, hgt]
        subst hji2
        exact le_refl _
    have he_es : e ∈ es := by
      have heS : e ∈ T.mergeSort edgeLE := (List.take_sublist _ _).subset heF2
      exact (hes e).mpr (hT.1 e (hSperm.mem_iff.mpr heS))
    have hconnS := conn_sel_filter hsort he_es
    have hsubF1 : ∀ x ∈ (sel [] es).filter (fun e' => edgeLE e' e),
        x ∈ (sel [] es).take i := by
      intro x hx
      rw [List.mem_filter, edgeLE, decide_eq_true_eq] at hx
      obtain ⟨hxK, hxd⟩ := hx
      obtain ⟨⟨j, hj⟩, hje⟩ := List.mem_iff_get.mp hxK
      have hji : j < i := by
        by_contra hge
        push_neg at hge
        have hKi_le : ((sel [] es).get ⟨i, h1⟩).distance ≤
            ((sel [] es).get ⟨j, hj⟩).distance := by
          rcases Nat.lt_or_ge i j with hlt' | hge'
          · exact List.pairwise_iff_get.mp hKsorted ⟨i, h1⟩ ⟨j, hj⟩ hlt'
          · have : i = j := by omega
            subst this
            exact le_refl _
        rw [hje] at hKi_le
        have : ((sel [] es).get ⟨i, h1⟩).distance ≤
            ((T.mergeSort edgeLE).get ⟨i, h2⟩).distance :=
          le_trans hKi_le (le_trans hxd hed)
        exact absurd this (not_le.mpr hlt)
      rw [← hje, List.get_take _ hj hji]
      exact List.get_mem _ _ _
    exact hnc (conn_mono hsubF1 hconnS)
  have hsum : List.Forall₂ (· ≤ ·) ((sel [] es).map Edge.distance)
      ((T.mergeSort edgeLE).map Edge.distance) := by
    rw [List.forall₂_iff_get]
    constructor
    · simp [hlen]
    · intro i hi1 hi2
      rw [List.length_map] at hi1 hi2
      rw [List.get_map, List.get_map]
      exact hdom i hi1 hi2
  have h1 := forall₂_sum_le hsum
  have h2 : ((T.mergeSort edgeLE).map Edge.distance).sum =
      (T.map Edge.distance).sum :=
    ((hSperm.map Edge.distance).sum_eq).symm
  rw [sumDist, sumDist]
  exact le_trans h1 (le_of_eq h2)

/-! ### Union-find: roots and parent chains -/

theorem isRoot_iterate {p : Parent} {x : String} (h : isRoot p x) (k : ℕ) :
    p^[k] x = x :=
  Function.iterate_fixed h k

theorem root_unique_aux {p : Parent} {x r1 r2 : String} {k1 k2 : ℕ}
    (hle : k1 ≤ k2) (h1 : p^[k1] x = r1) (hr1 : isRoot p r1)
    (h2 : p^[k2] x = r2) : r1 = r2 := by
  have hsplit : p^[k2] x = p^[k2 - k1] (p^[k1] x) := by
    rw [← Function.iterate_add_apply]
    congr 1
    omega
  rw [h1, isRoot_iterate hr1] at hsplit
  rw [← h2, hsplit]

theorem root_unique {p : Parent} {x r1 r2 : String} {k1 k2 : ℕ}
    (h1 : p^[k1] x = r1) (hr1 : isRoot p r1)
    (h2 : p^[k2] x = r2) (hr2 : isRoot p r2) : r1 = r2 := by
  rcases Nat.le_total k1 k2 with h | h
  · exact root_unique_aux h h1 hr1 h2
  · exact (root_unique_aux h h2 hr2 h1).symm

theorem rootOf_spec {p : Parent} {x : String}
    (h : ∃ k, isRoot p (p^[k] x)) :
    isRoot p (rootOf p x) ∧ ∃ k, p^[k] x = rootOf p x := by
  classical
  rw [rootOf, dif_pos h]
  exact ⟨Nat.find_spec h, ⟨Nat.find h, rfl⟩⟩

theorem rootOf_eq {p : Parent} {x r : String} {k : ℕ}
    (hk : p^[k] x = r) (hr : isRoot p r) : rootOf p x = r := by
  have h : ∃ k, isRoot p (p^[k] x) := ⟨k, by rw [hk]; exact hr⟩
  obtain ⟨hroot, k', hk'⟩ := rootOf_spec h
  exact root_unique hk' hroot hk hr

theorem rootOf_of_isRoot {p : Parent} {x : String} (h : isRoot p x) :
    rootOf p x = x :=
  rootOf_eq (Function.iterate_zero_apply p x) h

theorem rootOf_shift {p : Parent} {x : String} (hnr : ¬ isRoot p x)
    (h : ∃ k, isRoot p (p^[k] x)) : rootOf p x = rootOf p (p x) := by
  obtain ⟨k, hk⟩ := h
  have hk1 : k ≠ 0 := by
    intro h0
    rw [h0, Function.iterate_zero_apply] at hk
    exact hnr hk
  have hs : p^[k - 1] (p x) = p^[k] x := by
    rw [← Function.iterate_succ_apply]
    congr 1
    omega
  have h2 : ∃ k', isRoot p (p^[k'] (p x)) := ⟨k - 1, by rw [hs]; exact hk⟩
  obtain ⟨hr2, k', hk'⟩ := rootOf_spec h2
  have h3 : p^[k' + 1] x = rootOf p (p x) := by
    rw [Function.iterate_succ_apply]
    exact hk'
  exact rootOf_eq h3 hr2

/-! ### One compression update preserves the union-find abstraction -/

theorem update_root_chain {p : Parent} (hterm : ∀ z, ∃ k, isRoot p (p^[k] z))
    (x : String) :
    ∀ (k : ℕ) (z : String), isRoot p (p^[k] z) →
      ∃ k' ≤ k, (Function.update p x (rootOf p x))^[k'] z = p^[k] z ∧
        isRoot (Function.update p x (rootOf p x)) (p^[k] z) := by
  intro k
  induction k with
  | zero =>
    intro z hz
    rw [Function.iterate_zero_apply] at hz ⊢
    refine ⟨0, le_refl 0, Function.iterate_zero_apply _ z, ?_⟩
    by_cases hzx : z = x
    · subst hzx
      show Function.update p z (rootOf p z) z = z
      rw [Function.update_same, rootOf_of_isRoot hz]
    · show Function.update p x (rootOf p x) z = z
      rw [Function.update_noteq hzx]
      exact hz
  | succ k ih =>
    intro z hz
    by_cases hroot : isRoot p z
    · have hfix : p^[k + 1] z = z := isRoot_iterate hroot (k + 1)
      rw [hfix] at hz ⊢
      refine ⟨0, Nat.zero_le _, Function.iterate_zero_apply _ z, ?_⟩
      by_cases hzx : z = x
      · subst hzx
        show Function.update p z (rootOf p z) z = z
        rw [Function.update_same, rootOf_of_isRoot hroot]
      · show Function.update p x (rootOf p x) z = z
        rw [Function.update_noteq hzx]
        exact hroot
    · by_cases hzx : z = x
      · subst hzx
        have hrr : isRoot p (rootOf p z) ∧ ∃ j, p^[j] z = rootOf p z :=
          rootOf_spec (hterm z)
        have hne : rootOf p z ≠ z := by
          intro hc
          exact hroot (by rw [← hc]; exact hrr.1)
        have hval : p^[k + 1] z = rootOf p z := by
          obtain ⟨j, hj⟩ := hrr.2
          exact root_unique rfl hz hj hrr.1
        refine ⟨1, by omega, ?_, ?_⟩
        · rw [Function.iterate_one, Function.update_same, hval]
        · rw [hval]
          show Function.update p z (rootOf p z) (rootOf p z) = rootOf p z
          rw [Function.update_noteq hne]
          exact hrr.1
      · have hz' : isRoot p (p^[k] (p z)) := by
          rwa [← Function.iterate_succ_apply]
        obtain ⟨k', hk'le, hk'eq, hk'root⟩ := ih (p z) hz'
        refine ⟨k' + 1, by omega, ?_, ?_⟩
        · rw [Function.iterate_succ_apply]
          have hupd : Function.update p x (rootOf p x) z = p z :=
            Function.update_noteq hzx _ _
          rw [hupd, hk'eq, ← Function.iterate_succ_apply]
        · rw [Function.iterate_succ_apply] at hz
          rw [Function.iterate_succ_apply]
          exact hk'root

theorem update_root_RootedIn {p : Parent}
    (hterm : ∀ z, ∃ k, isRoot p (p^[k] z)) (x : String) {z : String} {n : ℕ}
    (h : RootedIn p n z) :
    RootedIn (Function.update p x (rootOf p x)) n z := by
  obtain ⟨k, hkn, hk⟩ := h
  obtain ⟨k', hk'le, hk'eq, hk'root⟩ := update_root_chain hterm x k z hk
  exact ⟨k', le_trans hk'le hkn, by rw [hk'eq]; exact hk'root⟩

theorem update_root_rootOf {p : Parent}
    (hterm : ∀ z, ∃ k, isRoot p (p^[k] z)) (x z : String) :
    rootOf (Function.update p x (rootOf p x)) z = rootOf p z := by
  obtain ⟨k, hk⟩ := hterm z
  obtain ⟨k', _, hk'eq, hk'root⟩ := update_root_chain hterm x k z hk
  have h1 : rootOf p z = p^[k] z := rootOf_eq rfl hk
  have h2 : rootOf (Function.update p x (rootOf p x)) z = p^[k] z :=
    rootOf_eq hk'eq hk'root
  rw [h1, h2]

theorem update_root_isRoot_iff {p : Parent}
    (hterm : ∀ z, ∃ k, isRoot p (p^[k] z)) (x z : String) :
    isRoot (Function.update p x (rootOf p x)) z ↔ isRoot p z := by
  by_cases hzx : z = x
  · subst hzx
    by_cases hroot : isRoot p z
    · constructor
      · intro _; exact hroot
      · intro _
        show Function.update p z (rootOf p z) z = z
        rw [Function.update_same, rootOf_of_isRoot hroot]
    · constructor
      · intro hc
        have : Function.update p z (rootOf p z) z = rootOf p z :=
          Function.update_same _ _ _
        rw [isRoot] at hc
        rw [this] at hc
        exact absurd (by rw [← hc]; exact (rootOf_spec (hterm z)).1) hroot
      · intro hc; exact absurd hc hroot
  · have : Function.update p x (rootOf p x) z = p z :=
      Function.update_noteq hzx _ _
    rw [isRoot, isRoot, this]

theorem find_root_case {fuel : ℕ} {p : Parent} {x : String} (h : isRoot p x) :
    find fuel p x = (x, p) := by
  cases fuel with
  | zero => rfl
  | succ n =>
    have h' : p x = x := h
    rw [find, if_pos h']

theorem find_spec {p : Parent} (hterm : ∀ z, ∃ k, isRoot p (p^[k] z)) :
    ∀ (fuel : ℕ) (x : String), (∃ k, k ≤ fuel ∧ isRoot p (p^[k] x)) →
      (find fuel p x).1 = rootOf p x ∧
      (∀ z, (find fuel p x).2 z = p z ∨ (find fuel p x).2 z = rootOf p z) ∧
      (∀ z, rootOf (find fuel p x).2 z = rootOf p z) ∧
      (∀ z n, RootedIn p n z → RootedIn (find fuel p x).2 n z) ∧
      (∀ z, isRoot (find fuel p x).2 z ↔ isRoot p z) := by
  intro fuel
  induction fuel with
  | zero =>
    intro x hx
    obtain ⟨k, hk0, hk⟩ := hx
    have hkz : k = 0 := by omega
    subst hkz
    rw [Function.iterate_zero_apply] at hk
    refine ⟨(rootOf_of_isRoot hk).symm, fun z => Or.inl rfl, fun z => rfl,
      fun z n h => h, fun z => Iff.rfl⟩
  | succ n ih =>
    intro x hx
    by_cases hroot : isRoot p x
    · rw [find_root_case hroot]
      exact ⟨(rootOf_of_isRoot hroot).symm, fun z => Or.inl rfl, fun z => rfl,
        fun z n h => h, fun z => Iff.rfl⟩
    · have hx' : ∃ k, k ≤ n ∧ isRoot p (p^[k] (p x)) := by
        obtain ⟨k, hkle, hk⟩ := hx
        have hk0 : k ≠ 0 := by
          intro h0
          rw [h0, Function.iterate_zero_apply] at hk
          exact hroot hk
        refine ⟨k - 1, by omega, ?_⟩
        have hs : p^[k - 1] (p x) = p^[k] x := by
          rw [← Function.iterate_succ_apply]
          congr 1
          omega
        rw [hs]
        exact hk
      obtain ⟨iha, ihb, ihc, ihd, ihe⟩ := ih (p x) hx'
      have hterm2 : ∀ z, ∃ k,
          isRoot (find n p (p x)).2 ((find n p (p x)).2^[k] z) := by
        intro z
        obtain ⟨k, hk⟩ := hterm z
        obtain ⟨k', _, hk'⟩ := ihd z k ⟨k, le_refl k, hk⟩
        exact ⟨k', hk'⟩
      have heq : find (n + 1) p x =
          ((find n p (p x)).1,
            Function.update (find n p (p x)).2 x (find n p (p x)).1) := by
        have hroot' : ¬ (p x = x) := hroot
        rw [find, if_neg hroot']
      have hfst : (find n p (p x)).1 = rootOf p x := by
        rw [iha, ← rootOf_shift hroot (hterm x)]
      have hval : (find n p (p x)).1 = rootOf (find n p (p x)).2 x := by
        rw [hfst]
        exact (ihc x).symm
      have hupdate_eq : Function.update (find n p (p x)).2 x
            (find n p (p x)).1 =
          Function.update (find n p (p x)).2 x
            (rootOf (find n p (p x)).2 x) := by
        rw [hval]
      refine ⟨?_, ?_, ?_, ?_, ?_⟩
      · rw [heq]
        exact hfst
      · intro z
        rw [heq]
        show Function.update (find n p (p x)).2 x (find n p (p x)).1 z =
            p z ∨
          Function.update (find n p (p x)).2 x (find n p (p x)).1 z =
            rootOf p z
        by_cases hzx : z = x
        · subst hzx
          rw [Function.update_same]
          exact Or.inr hfst
        · rw [Function.update_noteq hzx]
          exact ihb z
      · intro z
        rw [heq]
        show rootOf (Function.update (find n p (p x)).2 x
          (find n p (p x)).1) z = rootOf p z
        rw [hupdate_eq, update_root_rootOf hterm2 x z, ihc z]
      · intro z m hm
        rw [heq]
        show RootedIn (Function.update (find n p (p x)).2 x
          (find n p (p x)).1) m z
        rw [hupdate_eq]
        exact update_root_RootedIn hterm2 x (ihd z m hm)
      · intro z
        rw [heq]
        show isRoot (Function.update (find n p (p x)).2 x
          (find n p (p x)).1) z ↔ isRoot p z
        rw [hupdate_eq, update_root_isRoot_iff hterm2 x z]
        exact ihe z

/-! ### The union update merges exactly two classes -/

theorem union_root_chain {p : Parent} {ra rb : String} (hra : isRoot p ra)
    (hrb : isRoot p rb) :
    ∀ (k : ℕ) (z : String), isRoot p (p^[k] z) →
      ∃ k' ≤ k + 1,
        (Function.update p ra rb)^[k'] z =
          (if p^[k] z = ra then rb else p^[k] z) ∧
        isRoot (Function.update p ra rb) ((Function.update p ra rb)^[k'] z) := by
  have hrootrb : isRoot (Function.update p ra rb) rb := by
    by_cases hc : rb = ra
    · show Function.update p ra rb rb = rb
      rw [hc, Function.update_same]
    · show Function.update p ra rb rb = rb
      rw [Function.update_noteq hc]
      exact hrb
  intro k
  induction k with
  | zero =>
    intro z hz
    rw [Function.iterate_zero_apply] at hz ⊢
    by_cases hza : z = ra
    · refine ⟨1, by omega, ?_, ?_⟩
      · rw [if_pos hza, Function.iterate_one, hza, Function.update_same]
      · rw [Function.iterate_one, hza, Function.update_same]
        exact hrootrb
    · refine ⟨0, by omega, ?_, ?_⟩
      · rw [if_neg hza, Function.iterate_zero_apply]
      · rw [Function.iterate_zero_apply]
        show Function.update p ra rb z = z
        rw [Function.update_noteq hza]
        exact hz
  | succ k ih =>
    intro z hz
    by_cases hroot : isRoot p z
    · have hfix : p^[k + 1] z = z := isRoot_iterate hroot (k + 1)
      rw [hfix] at hz ⊢
      by_cases hza : z = ra
      · refine ⟨1, by omega, ?_, ?_⟩
        · rw [if_pos hza, Function.iterate_one, hza, Function.update_same]
        · rw [Function.iterate_one, hza, Function.update_same]
          exact hrootrb
      · refine ⟨0, by omega, ?_, ?_⟩
        · rw [if_neg hza, Function.iterate_zero_apply]
        · rw [Function.iterate_zero_apply]
          show Function.update p ra rb z = z
          rw [Function.update_noteq hza]
          exact hz
    · have hza : z ≠ ra := by
        intro hc
        exact hroot (hc ▸ hra)
      have hz' : isRoot p (p^[k] (p z)) := by
        rwa [← Function.iterate_succ_apply]
      obtain ⟨k', hk'le, hk'eq, hk'root⟩ := ih (p z) hz'
      refine ⟨k' + 1, by omega, ?_, ?_⟩
      · rw [Function.iterate_succ_apply, Function.update_noteq hza, hk'eq,
          ← Function.iterate_succ_apply]
      · rw [Function.iterate_succ_apply, Function.update_noteq hza]
        exact hk'root

theorem union_RootedIn {p : Parent} {ra rb : String} (hra : isRoot p ra)
    (hrb : isRoot p rb) {z : String} {n : ℕ} (h : RootedIn p n z) :
    RootedIn (Function.update p ra rb) (n + 1) z := by
  obtain ⟨k, hkn, hk⟩ := h
  obtain ⟨k', hk'le, _, hk'root⟩ := union_root_chain hra hrb k z hk
  exact ⟨k', by omega, hk'root⟩

theorem union_rootOf {p : Parent} {ra rb : String} (hra : isRoot p ra)
    (hrb : isRoot p rb) (hterm : ∀ z, ∃ k, isRoot p (p^[k] z)) (z : String) :
    rootOf (Function.update p ra rb) z =
      (if rootOf p z = ra then rb else rootOf p z) := by
  obtain ⟨k, hk⟩ := hterm z
  obtain ⟨k', _, hk'eq, hk'root⟩ := union_root_chain hra hrb k z hk
  have h1 : rootOf p z = p^[k] z := rootOf_eq rfl hk
  have h2 : rootOf (Function.update p ra rb) z =
      (Function.update p ra rb)^[k'] z :=
    rootOf_eq rfl hk'root
  rw [h1, h2, hk'eq]

theorem merge_classes_iff {Rx Ry ra rb : String} (hne : ra ≠ rb) :
    ((if Rx = ra then rb else Rx) = if Ry = ra then rb else Ry) ↔
      (Rx = Ry ∨ (Rx = ra ∧ Ry = rb) ∨ (Rx = rb ∧ Ry = ra)) := by
  by_cases hx : Rx = ra <;> by_cases hy : Ry = ra
  · rw [if_pos hx, if_pos hy]
    constructor
    · intro _
      exact Or.inl (hx.trans hy.symm)
    · intro _
      rfl
  · rw [if_pos hx, if_neg hy]
    constructor
    · intro h
      exact Or.inr (Or.inl ⟨hx, h.symm⟩)
    · rintro (h | ⟨h1, h2⟩ | ⟨h1, h2⟩)
      · exact absurd (h.symm.trans hx) hy
      · exact h2.symm
      · exact absurd (hx.symm.trans h1) hne
  · rw [if_neg hx, if_pos hy]
    constructor
    · intro h
      exact Or.inr (Or.inr ⟨h, hy⟩)
    · rintro (h | ⟨h1, h2⟩ | ⟨h1, h2⟩)
      · exact absurd (h.trans hy) hx
      · exact absurd h1 hx
      · exact h1
  · rw [if_neg hx, if_neg hy]
    constructor
    · intro h
      exact Or.inl h
    · rintro (h | ⟨h1, h2⟩ | ⟨h1, h2⟩)
      · exact h
      · exact absurd h1 hx
      · exact absurd h2 hy

/-! ### The union-find loop implements the abstract greedy selection -/

theorem kruskalLoop_eq_sel {V : Finset String} :
    ∀ (es : List Edge) (p : Parent) (A : List Edge) (fuel : ℕ),
      V.card ≤ fuel →
      edgesValid V es → edgesValid V A → IsForest V A →
      (∀ z, RootedIn p A.length z) →
      (∀ x y, rootOf p x = rootOf p y ↔ conn A x y) →
      kruskalLoop fuel p es = sel A es := by
  intro es
  induction es with
  | nil =>
    intro p A fuel _ _ _ _ _ _
    rw [kruskalLoop, sel]
  | cons e rest ih =>
    intro p A fuel hfuel hvalid hAvalid hAforest hroot hiv
    classical
    have hAlen : A.length ≤ fuel := by
      rw [IsForest] at hAforest
      omega
    have hterm : ∀ z, ∃ k, isRoot p (p^[k] z) := by
      intro z
      obtain ⟨k, _, hk⟩ := hroot z
      exact ⟨k, hk⟩
    have hx1 : ∃ k, k ≤ fuel ∧ isRoot p (p^[k] e.efrom.id) := by
      obtain ⟨k, hk1, hk2⟩ := hroot e.efrom.id
      exact ⟨k, le_trans hk1 hAlen, hk2⟩
    obtain ⟨hf1a, hf1b, hf1c, hf1d, hf1e⟩ := find_spec hterm fuel e.efrom.id hx1
    have hterm1 : ∀ z, ∃ k, isRoot (find fuel p e.efrom.id).2
        ((find fuel p e.efrom.id).2^[k] z) := by
      intro z
      obtain ⟨k, hk⟩ := hterm z
      obtain ⟨k', _, hk'⟩ := hf1d z k ⟨k, le_refl k, hk⟩
      exact ⟨k', hk'⟩
    have hx2 : ∃ k, k ≤ fuel ∧ isRoot (find fuel p e.efrom.id).2
        ((find fuel p e.efrom.id).2^[k] e.eto.id) := by
      obtain ⟨k, hk1, hk2⟩ := hroot e.eto.id
      obtain ⟨k', hk'le, hk'⟩ := hf1d e.eto.id k ⟨k, le_refl k, hk2⟩
      exact ⟨k', le_trans hk'le (le_trans hk1 hAlen), hk'⟩
    obtain ⟨hf2a, hf2b, hf2c, hf2d, hf2e⟩ :=
      find_spec hterm1 fuel e.eto.id hx2
    have hterm2 : ∀ z, ∃ k,
        isRoot (find fuel (find fuel p e.efrom.id).2 e.eto.id).2
          ((find fuel (find fuel p e.efrom.id).2 e.eto.id).2^[k] z) := by
      intro z
      obtain ⟨k, hk⟩ := hterm1 z
      obtain ⟨k', _, hk'⟩ := hf2d z k ⟨k, le_refl k, hk⟩
      exact ⟨k', hk'⟩
    simp only [kruskalLoop]
    set ra := (find fuel p e.efrom.id).1 with hra_def
    set p1 := (find fuel p e.efrom.id).2 with hp1_def
    set rb := (find fuel p1 e.eto.id).1 with hrb_def
    set p2 := (find fuel p1 e.eto.id).2 with hp2_def
    have hra_eq : ra = rootOf p e.efrom.id := hf1a
    have hrb_eq : rb = rootOf p e.eto.id := by
      rw [hf2a, hf1c]
    have hR2 : ∀ z, rootOf p2 z = rootOf p z := fun z =>
      (hf2c z).trans (hf1c z)
    have hRoot2 : ∀ z, RootedIn p2 A.length z := fun z =>
      hf2d z _ (hf1d z _ (hroot z))
    have hiv2 : ∀ x y, rootOf p2 x = rootOf p2 y ↔ conn A x y := by
      intro x y
      rw [hR2 x, hR2 y]
      exact hiv x y
    have hcond_iff : ra = rb ↔ conn A e.efrom.id e.eto.id := by
      rw [hra_eq, hrb_eq]
      exact hiv _ _
    have hrootra2 : isRoot p2 ra := by
      rw [hf2e, hf1e, hra_eq]
      exact (rootOf_spec (hterm e.efrom.id)).1
    have hrootrb2 : isRoot p2 rb := by
      rw [hf2e, hf1e, hrb_eq]
      exact (rootOf_spec (hterm e.eto.id)).1
    by_cases hcond : ra = rb
    · rw [if_neg (not_not_intro hcond), sel, if_pos (hcond_iff.mp hcond)]
      exact ih p2 A fuel hfuel
        (fun e' he' => hvalid e' (List.mem_cons_of_mem e he'))
        hAvalid hAforest hRoot2 hiv2
    · have hnconn : ¬ conn A e.efrom.id e.eto.id := fun hc =>
        hcond (hcond_iff.mpr hc)
      rw [if_pos hcond, sel, if_neg hnconn]
      have hu : union fuel p2 ra rb = Function.update p2 ra rb := by
        show Function.update (find fuel (find fuel p2 ra).2 rb).2
          (find fuel p2 ra).1 (find fuel (find fuel p2 ra).2 rb).1 = _
        rw [find_root_case hrootra2]
        show Function.update (find fuel p2 rb).2 ra (find fuel p2 rb).1 = _
        rw [find_root_case hrootrb2]
      rw [hu]
      have hends := hvalid e (List.mem_cons_self e rest)
      have hA'valid : edgesValid V (A ++ [e]) := by
        intro e' he'
        rcases List.mem_append.mp he' with h | h
        · exact hAvalid e' h
        · rw [List.mem_singleton] at h
          subst h
          exact hends
      have hA'forest : IsForest V (A ++ [e]) := by
        have hcount := ncomp_cons_of_not_conn (V := V) hends.1 hends.2 hnconn
        rw [IsForest] at hAforest ⊢
        rw [ncomp_append_singleton, List.length_append, List.length_singleton]
        omega
      have hRoot3 : ∀ z, RootedIn (Function.update p2 ra rb)
          (A ++ [e]).length z := by
        intro z
        rw [List.length_append, List.length_singleton]
        exact union_RootedIn hrootra2 hrootrb2 (hRoot2 z)
      have hiv3 : ∀ x y, rootOf (Function.update p2 ra rb) x =
          rootOf (Function.update p2 ra rb) y ↔ conn (A ++ [e]) x y := by
        intro x y
        rw [union_rootOf hrootra2 hrootrb2 hterm2 x,
          union_rootOf hrootra2 hrootrb2 hterm2 y, hR2 x, hR2 y,
          merge_classes_iff hcond]
        have hconnA : conn (A ++ [e]) x y ↔ conn (e :: A) x y :=
          conn_congr (by intro e'; simp [or_comm])
        rw [hconnA, conn_cons_iff]
        have e1 : rootOf p x = ra ↔ conn A x e.efrom.id := by
          rw [hra_eq]
          exact hiv _ _
        have e2 : rootOf p y = ra ↔ conn A e.efrom.id y := by
          rw [hra_eq]
          constructor
          · intro h
            exact conn_symm ((hiv _ _).mp h)
          · intro h
            exact (hiv _ _).mpr (conn_symm h)
        have e3 : rootOf p x = rb ↔ conn A x e.eto.id := by
          rw [hrb_eq]
          exact hiv _ _
        have e4 : rootOf p y = rb ↔ conn A e.eto.id y := by
          rw [hrb_eq]
          constructor
          · intro h
            exact conn_symm ((hiv _ _).mp h)
          · intro h
            exact (hiv _ _).mpr (conn_symm h)
        rw [hiv x y, e1, e2, e3, e4]
      exact congrArg (List.cons e) (ih (Function.update p2 ra rb) (A ++ [e])
        fuel hfuel (fun e' he' => hvalid e' (List.mem_cons_of_mem e he'))
        hA'valid hA'forest hRoot3 hiv3)

theorem rootOf_id (x : String) : rootOf (fun id => id) x = x :=
  rootOf_of_isRoot (show isRoot (fun id => id) x from rfl)

theorem buildMST_eq_sel (nodes : List Point) :
    buildMinimumSpanningTree nodes = sel [] (sortEdges (enumEdges nodes)) := by
  rw [buildMinimumSpanningTree]
  refine kruskalLoop_eq_sel (V := idSet nodes) _ _ _ _ ?_ ?_ ?_ ?_ ?_ ?_
  · calc (idSet nodes).card ≤ (nodes.map Point.id).length :=
          List.toFinset_card_le _
      _ = nodes.length := List.length_map _ _
  · intro e he
    exact enumEdges_valid nodes e ((sortEdges_perm _).subset he)
  · intro e he
    exact absurd he (List.not_mem_nil e)
  · rw [IsForest, ncomp_nil]
    simp
  · intro z
    refine ⟨0, le_refl 0, ?_⟩
    rw [Function.iterate_zero_apply]
    rfl
  · intro x y
    rw [rootOf_id, rootOf_id]
    exact conn_nil.symm

theorem idSet_nonempty {nodes : List Point} (h : nodes ≠ []) :
    (idSet nodes).Nonempty := by
  obtain ⟨p, hp⟩ := List.exists_mem_of_ne_nil nodes h
  exact ⟨p.id, mem_idSet.mpr ⟨p, hp, rfl⟩⟩

theorem sortEdges_mem (nodes : List Point) :
    ∀ e, e ∈ sortEdges (enumEdges nodes) ↔ e ∈ enumEdges nodes :=
  fun e => (sortEdges_perm _).mem_iff

/-- C1: on an input list with pairwise-distinct ids,
`buildMinimumSpanningTree` returns a spanning tree of the implicit complete
graph on the input points whose total distance is minimum over all spanning
trees of that graph; in particular (see the witness) this holds at the four
square-layout points A(0,0), B(0,1), C(1,1), D(1,0), where the minimum is
over all spanning trees of the 4-node complete graph. -/
theorem buildMST_minimum_spanning_tree (nodes : List Point)
    (hnodup : (nodes.map Point.id).Nodup) :
    SpanningTree nodes (buildMinimumSpanningTree nodes) ∧
    ∀ T, SpanningTree nodes T →
      sumDist (buildMinimumSpanningTree nodes) ≤ sumDist T := by
  have hes := sortEdges_mem nodes
  rw [buildMST_eq_sel]
  by_cases hnil : nodes = []
  · subst hnil
    have hempty : enumEdges [] = [] := rfl
    constructor
    · refine ⟨?_, ?_, ?_⟩
      · intro e he
        exact (hes e).mp ((sel_sublist _ _).subset he)
      · exact sel_spanning hes
      · have : sel [] (sortEdges (enumEdges [])) = [] := by
          rw [hempty, sortEdges, List.mergeSort_nil, sel]
        rw [this]
        rfl
    · intro T hT
      have hTnil : T = [] := by
        rw [List.eq_nil_iff_forall_not_mem]
        intro e he
        have := hT.1 e he
        rw [hempty] at this
        exact absurd this (List.not_mem_nil e)
      subst hTnil
      have : sel [] (sortEdges (enumEdges [])) = [] := by
        rw [hempty, sortEdges, List.mergeSort_nil, sel]
      rw [this]
  · have hVne := idSet_nonempty hnil
    constructor
    · exact ⟨fun e he => (hes e).mp ((sel_sublist _ _).subset he),
        sel_spanning hes, sel_length hes hVne⟩
    · intro T hT
      exact sel_sumDist_le (sortEdges_sorted _) hes hVne hT

/-- Witness for C1: the four square-layout points A(0,0), B(0,1), C(1,1),
D(1,0) (lat, lng in degrees) with distinct ids. -/
theorem buildMST_minimum_spanning_tree_witness :
    ([⟨"A", "", "", "", "", 0, 0⟩, ⟨"B", "", "", "", "", 0, 1⟩,
        ⟨"C", "", "", "", "", 1, 1⟩,
        ⟨"D", "", "", "", "", 1, 0⟩].map Point.id).Nodup ∧
    (SpanningTree [⟨"A", "", "", "", "", 0, 0⟩, ⟨"B", "", "", "", "", 0, 1⟩,
        ⟨"C", "", "", "", "", 1, 1⟩, ⟨"D", "", "", "", "", 1, 0⟩]
      (buildMinimumSpanningTree [⟨"A", "", "", "", "", 0, 0⟩,
        ⟨"B", "", "", "", "", 0, 1⟩, ⟨"C", "", "", "", "", 1, 1⟩,
        ⟨"D", "", "", "", "", 1, 0⟩]) ∧
    ∀ T, SpanningTree [⟨"A", "", "", "", "", 0, 0⟩,
        ⟨"B", "", "", "", "", 0, 1⟩, ⟨"C", "", "", "", "", 1, 1⟩,
        ⟨"D", "", "", "", "", 1, 0⟩] T →
      sumDist (buildMinimumSpanningTree [⟨"A", "", "", "", "", 0, 0⟩,
        ⟨"B", "", "", "", "", 0, 1⟩, ⟨"C", "", "", "", "", 1, 1⟩,
        ⟨"D", "", "", "", "", 1, 0⟩]) ≤ sumDist T) :=
  ⟨by decide, buildMST_minimum_spanning_tree _ (by decide)⟩

theorem pairs_length : ∀ l : List Point,
    2 * (pairs l).length = l.length * (l.length - 1) := by
  intro l
  induction l with
  | nil => rfl
  | cons p rest ih =>
    rw [pairs, List.length_append, List.length_map, List.length_cons]
    rcases hn : rest.length with _ | n
    · rw [hn] at ih
      omega
    · rw [hn] at ih
      have h2 : n + 1 - 1 = n := rfl
      rw [h2] at ih
      have h3 : n + 1 + 1 - 1 = n + 1 := rfl
      rw [h3]
      nlinarith

/-- C2: the enumeration produces exactly `N·(N-1)/2` candidate edges, and on
pairwise-distinct ids the returned list has exactly `N - 1` edges (so 0
edges for `N = 0` and `N = 1`). -/
theorem buildMST_edge_counts (nodes : List Point)
    (hnodup : (nodes.map Point.id).Nodup) :
    (enumEdges nodes).length = nodes.length * (nodes.length - 1) / 2 ∧
    (buildMinimumSpanningTree nodes).length = nodes.length - 1 := by
  constructor
  · have h1 : (enumEdges nodes).length = (pairs nodes).length := by
      rw [enumEdges, List.length_map]
    have h2 := pairs_length nodes
    omega
  · rw [buildMST_eq_sel]
    by_cases hnil : nodes = []
    · subst hnil
      have hval : sel [] (sortEdges (enumEdges [])) = [] := by
        rw [show enumEdges [] = [] from rfl, sortEdges, List.mergeSort_nil, sel]
      rw [hval]
      rfl
    · have hVne := idSet_nonempty hnil
      have hcard : (idSet nodes).card = nodes.length := by
        rw [idSet, List.toFinset_card_of_nodup hnodup, List.length_map]
      rw [sel_length (sortEdges_mem nodes) hVne, hcard]

/-- Witness for C2 at three concrete points with distinct ids. -/
theorem buildMST_edge_counts_witness :
    ([⟨"A", "", "", "", "", 0, 0⟩, ⟨"B", "", "", "", "", 0, 1⟩,
        ⟨"C", "", "", "", "", 1, 1⟩].map Point.id).Nodup ∧
    ((enumEdges [⟨"A", "", "", "", "", 0, 0⟩, ⟨"B", "", "", "", "", 0, 1⟩,
        ⟨"C", "", "", "", "", 1, 1⟩]).length = 3 * (3 - 1) / 2 ∧
      (buildMinimumSpanningTree [⟨"A", "", "", "", "", 0, 0⟩,
        ⟨"B", "", "", "", "", 0, 1⟩,
        ⟨"C", "", "", "", "", 1, 1⟩]).length = 3 - 1) :=
  ⟨by decide, buildMST_edge_counts _ (by decide)⟩

/-- C3: on N ≥ 1 points with pairwise-distinct ids the returned edges
connect all points into exactly one component, and every prefix of the
returned list is acyclic: each accepted edge joins two points not already
connected through the previously accepted edges. -/
theorem buildMST_spanning_acyclic (nodes : List Point)
    (hnodup : (nodes.map Point.id).Nodup) (hN : 1 ≤ nodes.length) :
    (∀ x ∈ idSet nodes, ∀ y ∈ idSet nodes,
      conn (buildMinimumSpanningTree nodes) x y) ∧
    ncomp (idSet nodes) (buildMinimumSpanningTree nodes) = 1 ∧
    ForestFrom [] (buildMinimumSpanningTree nodes) := by
  have hnil : nodes ≠ [] := by
    intro hc
    rw [hc] at hN
    exact absurd hN (by simp)
  have hVne := idSet_nonempty hnil
  rw [buildMST_eq_sel]
  refine ⟨sel_spanning (sortEdges_mem nodes), ?_, sel_forestFrom _ _⟩
  exact ncomp_eq_one_of_spanning hVne (sel_spanning (sortEdges_mem nodes))

/-- Witness for C3 at two concrete points with distinct ids. -/
theorem buildMST_spanning_acyclic_witness :
    (([⟨"A", "", "", "", "", 0, 0⟩,
        ⟨"B", "", "", "", "", 0, 1⟩].map Point.id).Nodup ∧
      1 ≤ ([⟨"A", "", "", "", "", 0, 0⟩,
        ⟨"B", "", "", "", "", 0, 1⟩] : List Point).length) ∧
    ((∀ x ∈ idSet [⟨"A", "", "", "", "", 0, 0⟩, ⟨"B", "", "", "", "", 0, 1⟩],
        ∀ y ∈ idSet [⟨"A", "", "", "", "", 0, 0⟩, ⟨"B", "", "", "", "", 0, 1⟩],
        conn (buildMinimumSpanningTree [⟨"A", "", "", "", "", 0, 0⟩,
          ⟨"B", "", "", "", "", 0, 1⟩]) x y) ∧
      ncomp (idSet [⟨"A", "", "", "", "", 0, 0⟩, ⟨"B", "", "", "", "", 0, 1⟩])
        (buildMinimumSpanningTree [⟨"A", "", "", "", "", 0, 0⟩,
          ⟨"B", "", "", "", "", 0, 1⟩]) = 1 ∧
      ForestFrom [] (buildMinimumSpanningTree [⟨"A", "", "", "", "", 0, 0⟩,
        ⟨"B", "", "", "", "", 0, 1⟩])) :=
  ⟨⟨by decide, by decide⟩, buildMST_spanning_acyclic _ (by decide) (by decide)⟩

/-- C9: the builder is total: with any fuel at least `nodes.length` for the
recursive `find`, the loop yields the same result, so the bounded recursion
never exhausts its bound (the parent map stays a forest and every `find`
terminates within `nodes.length` steps). -/
theorem buildMST_total (nodes : List Point) (fuel : ℕ)
    (hfuel : nodes.length ≤ fuel) :
    kruskalLoop fuel (fun id => id) (sortEdges (enumEdges nodes)) =
      buildMinimumSpanningTree nodes := by
  rw [buildMST_eq_sel]
  refine kruskalLoop_eq_sel (V := idSet nodes) _ _ _ _ ?_ ?_ ?_ ?_ ?_ ?_
  · refine le_trans ?_ hfuel
    calc (idSet nodes).card ≤ (nodes.map Point.id).length :=
          List.toFinset_card_le _
      _ = nodes.length := List.length_map _ _
  · intro e he
    exact enumEdges_valid nodes e ((sortEdges_perm _).subset he)
  · intro e he
    exact absurd he (List.not_mem_nil e)
  · rw [IsForest, ncomp_nil]
    simp
  · intro z
    refine ⟨0, le_refl 0, ?_⟩
    rw [Function.iterate_zero_apply]
    rfl
  · intro x y
    rw [rootOf_id, rootOf_id]
    exact conn_nil.symm

/-- Witness for C9: two points, fuel 5. -/
theorem buildMST_total_witness :
    ([⟨"A", "", "", "", "", 0, 0⟩,
        ⟨"B", "", "", "", "", 0, 1⟩] : List Point).length ≤ 5 ∧
    kruskalLoop 5 (fun id => id) (sortEdges (enumEdges
        [⟨"A", "", "", "", "", 0, 0⟩, ⟨"B", "", "", "", "", 0, 1⟩])) =
      buildMinimumSpanningTree
        [⟨"A", "", "", "", "", 0, 0⟩, ⟨"B", "", "", "", "", 0, 1⟩] :=
  ⟨by decide, buildMST_total _ 5 (by decide)⟩

/-- C7: the builder is deterministic: in the model it is a pure function
(identical inputs give identical outputs), and the sort of line 49 is a
stable sort: it permutes the enumerated edges, orders them by ascending
distance, and any two edges already in enumeration order whose distances
are equal (or ordered) keep their relative order, so equal-distance edges
retain their enumeration order from the `i < j` pair generation. -/
theorem buildMST_deterministic :
    (∀ nodes : List Point,
      buildMinimumSpanningTree nodes = buildMinimumSpanningTree nodes) ∧
    (∀ l : List Edge, List.Perm (sortEdges l) l) ∧
    (∀ l : List Edge,
      List.Pairwise (fun a b : Edge => a.distance ≤ b.distance)
        (sortEdges l)) ∧
    (∀ (l : List Edge) (e1 e2 : Edge), e1.distance ≤ e2.distance →
      List.Sublist [e1, e2] l → List.Sublist [e1, e2] (sortEdges l)) := by
  refine ⟨fun _ => rfl, sortEdges_perm, sortEdges_sorted, ?_⟩
  intro l e1 e2 hle hsub
  refine List.sublist_mergeSort edgeLE_trans edgeLE_total ?_ hsub
  refine List.pairwise_cons.mpr ⟨?_, List.pairwise_singleton _ _⟩
  intro e' he'
  rw [List.mem_singleton] at he'
  subst he'
  rw [edgeLE]
  exact decide_eq_true hle

/-- Witness for C7: two equal-distance edges in enumeration order remain in
that order after the sort. -/
theorem buildMST_deterministic_witness :
    (Edge.mk ⟨"A", "", "", "", "", 0, 0⟩ ⟨"B", "", "", "", "", 0, 1⟩
        1).distance ≤
      (Edge.mk ⟨"B", "", "", "", "", 0, 1⟩ ⟨"A", "", "", "", "", 0, 0⟩
        1).distance ∧
    List.Sublist
      [Edge.mk ⟨"A", "", "", "", "", 0, 0⟩ ⟨"B", "", "", "", "", 0, 1⟩ 1,
        Edge.mk ⟨"B", "", "", "", "", 0, 1⟩ ⟨"A", "", "", "", "", 0, 0⟩ 1]
      (sortEdges
        [Edge.mk ⟨"A", "", "", "", "", 0, 0⟩ ⟨"B", "", "", "", "", 0, 1⟩ 1,
          Edge.mk ⟨"B", "", "", "", "", 0, 1⟩ ⟨"A", "", "", "", "", 0, 0⟩
            1]) :=
  ⟨le_refl _, buildMST_deterministic.2.2.2 _ _ _ (le_refl _)
    (List.Sublist.refl _)⟩

/-- C10: the builder is pure with respect to its input (it is a function of
the input list; the model has no mutation), and every edge of the output
references only points taken from the input list; consequently invoking it
on a filtered subset never yields an edge naming an excluded point. -/
theorem buildMST_frame :
    (∀ nodes : List Point, ∀ e ∈ buildMinimumSpanningTree nodes,
      e.efrom ∈ nodes ∧ e.eto ∈ nodes) ∧
    (∀ (pred : Point → Bool) (nodes : List Point),
      ∀ e ∈ buildMinimumSpanningTree (nodes.filter pred),
        (e.efrom ∈ nodes.filter pred ∧ pred e.efrom = true) ∧
        (e.eto ∈ nodes.filter pred ∧ pred e.eto = true)) := by
  have hmain : ∀ nodes : List Point, ∀ e ∈ buildMinimumSpanningTree nodes,
      e.efrom ∈ nodes ∧ e.eto ∈ nodes := by
    intro nodes e he
    rw [buildMST_eq_sel] at he
    have h1 : e ∈ enumEdges nodes :=
      (sortEdges_mem nodes e).mp ((sel_sublist _ _).subset he)
    rw [enumEdges, List.mem_map] at h1
    obtain ⟨pq, hpq, rfl⟩ := h1
    exact mem_of_mem_pairs hpq
  refine ⟨hmain, ?_⟩
  intro pred nodes e he
  obtain ⟨h1, h2⟩ := hmain _ e he
  exact ⟨⟨h1, (List.mem_filter.mp h1).2⟩, ⟨h2, (List.mem_filter.mp h2).2⟩⟩

/-- Witness for C10: on the two-point input the single output edge
references exactly the input points. -/
theorem buildMST_frame_witness :
    (Edge.mk ⟨"A", "", "", "", "", 0, 0⟩ ⟨"B", "", "", "", "", 0, 1⟩
        (haversineDistance ⟨"A", "", "", "", "", 0, 0⟩
          ⟨"B", "", "", "", "", 0, 1⟩)).efrom ∈
      [(⟨"A", "", "", "", "", 0, 0⟩ : Point), ⟨"B", "", "", "", "", 0, 1⟩] ∧
    (Edge.mk ⟨"A", "", "", "", "", 0, 0⟩ ⟨"B", "", "", "", "", 0, 1⟩
        (haversineDistance ⟨"A", "", "", "", "", 0, 0⟩
          ⟨"B", "", "", "", "", 0, 1⟩)).eto ∈
      [(⟨"A", "", "", "", "", 0, 0⟩ : Point), ⟨"B", "", "", "", "", 0, 1⟩] := by
  have hbuild : buildMinimumSpanningTree
      [⟨"A", "", "", "", "", 0, 0⟩, ⟨"B", "", "", "", "", 0, 1⟩] =
      [Edge.mk ⟨"A", "", "", "", "", 0, 0⟩ ⟨"B", "", "", "", "", 0, 1⟩
        (haversineDistance ⟨"A", "", "", "", "", 0, 0⟩
          ⟨"B", "", "", "", "", 0, 1⟩)] := by
    rw [buildMinimumSpanningTree,
      show enumEdges [⟨"A", "", "", "", "", 0, 0⟩,
          ⟨"B", "", "", "", "", 0, 1⟩] =
        [Edge.mk ⟨"A", "", "", "", "", 0, 0⟩ ⟨"B", "", "", "", "", 0, 1⟩
          (haversineDistance ⟨"A", "", "", "", "", 0, 0⟩
            ⟨"B", "", "", "", "", 0, 1⟩)] from rfl,
      sortEdges, List.mergeSort_singleton]
    rfl
  exact buildMST_frame.1
    [⟨"A", "", "", "", "", 0, 0⟩, ⟨"B", "", "", "", "", 0, 1⟩] _
    (by rw [hbuild]; exact List.mem_singleton.mpr rfl)
